import Mathlib

/-!
Shallow embedding of the go-monitoring repository (async batch log writer,
analytics aggregator, filter/pagination resolver, capture middleware, job
service), with theorems settling the specification claims.

Conventions:
* Go `int` / `int64` / `time.Duration` are embedded as `Int` (no overflow is
  exercised by any modelled code path).
* Go `time.Time` instants are embedded as `Int` nanoseconds; `time.Duration`
  constants (`time.Minute`, …) keep their Go values in nanoseconds.
* Go `float64` durations are embedded as `ℚ`: the code only compares
  durations, never does float arithmetic, and every comparison exercised is
  on finite values, where float ordering agrees with the rational order.
* Go standard-library functions whose source is outside this repository
  (`time.Parse`, `encoding/json`) are abstracted as explicit function
  parameters of the embedded definitions.
-/

/-! ### logwriter/writer.go : Options and New (defaults) -/

/-- Options configuring the Writer (`logwriter.Options`).
`flushInterval` is in nanoseconds (Go `time.Duration`). -/
structure WOptions where
  bufferSize : Int
  batchSize : Int
  flushInterval : Int
  workers : Int
  deriving Repr, DecidableEq

/-- Go `5 * time.Second` in nanoseconds. -/
def fiveSeconds : Int := 5 * 1000000000

/-- The option normalization performed at the top of `logwriter.New`:
every non-positive field is replaced by its default before the workers
are spawned. -/
def normalizeOptions (o : WOptions) : WOptions :=
  let o := if o.bufferSize ≤ 0 then { o with bufferSize := 10000 } else o
  let o := if o.batchSize ≤ 0 then { o with batchSize := 100 } else o
  let o := if o.flushInterval ≤ 0 then { o with flushInterval := fiveSeconds } else o
  let o := if o.workers ≤ 0 then { o with workers := 1 } else o
  o

/-! ### logwriter/writer.go : Write and the queue invariant -/

/-- A log entry (`models.RequestLog`) as seen by the writer queue; the
writer treats entries as opaque, so an abstract type suffices here. -/
abbrev Entry : Type := Nat

/-- State of a `Writer`: the buffered channel contents, its capacity,
and the `closed` flag. -/
structure WriterState where
  cap : Nat
  queue : List Entry
  closed : Bool
  deriving DecidableEq

/-- Outcome of a `Write` call.  The Go method returns nothing and never
errors; the three constructors are the three code paths: successful
channel send, `default:` branch (buffer full, warning logged), and the
early `return` when `closed` is set (silent drop, no log). -/
inductive WriteOutcome where
  | enqueued
  | droppedFull
  | droppedClosed
  deriving Repr, DecidableEq

/-- The body of `(*Writer).Write`: if `closed`, drop silently; otherwise a
non-blocking channel send — it succeeds exactly when the buffered channel
has spare capacity, else the entry is dropped with a warning log. -/
def writerWrite (s : WriterState) (e : Entry) : WriterState × WriteOutcome :=
  if s.closed then
    (s, .droppedClosed)
  else if s.queue.length < s.cap then
    ({ s with queue := s.queue ++ [e] }, .enqueued)
  else
    (s, .droppedFull)

/-- The fresh state built by `logwriter.New`: empty channel of the
configured capacity, not closed. -/
def writerInit (cap : Nat) : WriterState :=
  { cap := cap, queue := [], closed := false }

/-- One step of the writer system: a producer `Write`, a worker receiving
one entry from the channel, or `Shutdown` setting the closed flag. -/
inductive WriterStep : WriterState → WriterState → Prop where
  | write (s : WriterState) (e : Entry) : WriterStep s (writerWrite s e).1
  | dequeue (s : WriterState) (e : Entry) (rest : List Entry) :
      s.queue = e :: rest → WriterStep s { s with queue := rest }
  | close (s : WriterState) : WriterStep s { s with closed := true }

/-- Reachability of writer states from the freshly constructed writer. -/
def writerReachable (cap : Nat) (s : WriterState) : Prop :=
  Relation.ReflTransGen WriterStep (writerInit cap) s

/-- A `Write` call preserves the queue-capacity bound and the capacity. -/
theorem writerWrite_bound (s : WriterState) (e : Entry)
    (h : s.queue.length ≤ s.cap) :
    (writerWrite s e).1.queue.length ≤ (writerWrite s e).1.cap ∧
      (writerWrite s e).1.cap = s.cap := by
  unfold writerWrite
  split
  · exact ⟨h, rfl⟩
  split
  · rename_i hlt
    refine ⟨?_, rfl⟩
    simp only [List.length_append, List.length_cons, List.length_nil]
    omega
  · exact ⟨h, rfl⟩

/-- Every writer step preserves the queue-capacity bound and the capacity. -/
theorem writerStep_bound {s t : WriterState}
    (h : WriterStep s t) (hcap : s.queue.length ≤ s.cap) :
    t.queue.length ≤ t.cap ∧ t.cap = s.cap := by
  cases h with
  | write e => exact writerWrite_bound s e hcap
  | dequeue e rest hq =>
    refine ⟨?_, rfl⟩
    rw [hq] at hcap
    simp only [List.length_cons] at hcap
    simp only
    omega
  | close => exact ⟨hcap, rfl⟩

/-- In every reachable writer state the queue length is bounded by the
configured capacity, and the capacity is the configured one. -/
theorem writerReachable_bound {cap : Nat} {s : WriterState}
    (h : writerReachable cap s) : s.queue.length ≤ s.cap ∧ s.cap = cap := by
  induction h with
  | refl => exact ⟨Nat.zero_le _, rfl⟩
  | tail _ hstep ih =>
    have hb := writerStep_bound hstep ih.1
    exact ⟨hb.1, hb.2.trans ih.2⟩

/-! ### logwriter/writer.go : worker loop -/

/-- An event observed by a worker's `select` loop: a successful channel
receive, a ticker fire, or the channel reporting closed (`ok == false`,
which in Go happens only after all buffered entries are drained). -/
inductive WEvent where
  | recv (e : Entry)
  | tick
  | closeCh
  deriving DecidableEq

/-- The worker loop of `(*Writer).worker`, as a function of the sequence
of `select` events it observes, returning the list of flushed batches in
order.  `batch` is the worker's private batch buffer.  On `recv` the entry
is appended and the batch is flushed when it reaches `batchSize`; on
`tick` a non-empty batch is flushed; on `closeCh` the remaining batch is
flushed (if non-empty) and the worker returns. -/
def workerRun (batchSize : Nat) : List WEvent → List Entry → List (List Entry)
  | [], _ => []
  | WEvent.recv e :: evs, batch =>
    let b := batch ++ [e]
    if batchSize ≤ b.length then
      b :: workerRun batchSize evs []
    else
      workerRun batchSize evs b
  | WEvent.tick :: evs, batch =>
    if batch.isEmpty then
      workerRun batchSize evs batch
    else
      batch :: workerRun batchSize evs []
  | WEvent.closeCh :: _, batch =>
    if batch.isEmpty then [] else [batch]

/-- Enqueue a list of entries one by one through `writerWrite`. -/
def writeAll (s : WriterState) : List Entry → WriterState
  | [] => s
  | e :: es => writeAll (writerWrite s e).1 es

/-! ### Claim theorems for the writer -/

/-- C1: `Writer.Write` never blocks and never returns an error: its outcome
is always one of the three non-error paths (enqueued, dropped-full with a
warning log, dropped-closed silently); when the writer is shut down the
record is silently dropped and the state unchanged; when the queue is at
capacity the record is dropped immediately (warning path) and the state
unchanged; and in every reachable state the queue length never exceeds the
configured buffer capacity. -/
theorem write_never_blocks_never_errors :
    (∀ (s : WriterState) (e : Entry),
        (writerWrite s e).2 = WriteOutcome.enqueued ∨
        (writerWrite s e).2 = WriteOutcome.droppedFull ∨
        (writerWrite s e).2 = WriteOutcome.droppedClosed) ∧
    (∀ (s : WriterState) (e : Entry), s.closed = true →
        writerWrite s e = (s, WriteOutcome.droppedClosed)) ∧
    (∀ (s : WriterState) (e : Entry), s.closed = false →
        s.cap ≤ s.queue.length →
        writerWrite s e = (s, WriteOutcome.droppedFull)) ∧
    (∀ (cap : Nat) (s : WriterState), writerReachable cap s →
        s.queue.length ≤ cap) := by
  refine ⟨?_, ?_, ?_, ?_⟩
  · intro s e
    unfold writerWrite
    split
    · right; right; rfl
    split
    · left; rfl
    · right; left; rfl
  · intro s e h
    unfold writerWrite
    simp [h]
  · intro s e hcl hfull
    unfold writerWrite
    simp only [hcl, Bool.false_eq_true, if_false]
    rw [if_neg (by omega)]
  · intro cap s h
    have hb := writerReachable_bound h
    exact hb.2 ▸ hb.1

/-- Witness for `write_never_blocks_never_errors` at concrete states: a
full queue of capacity 2 drops entry 5 with the warning outcome, a closed
writer drops it silently, and the fresh writer satisfies the bound. -/
theorem write_never_blocks_never_errors_witness :
    writerWrite ⟨2, [0, 1], false⟩ 5 = (⟨2, [0, 1], false⟩, WriteOutcome.droppedFull) ∧
    writerWrite ⟨2, [0], true⟩ 5 = (⟨2, [0], true⟩, WriteOutcome.droppedClosed) ∧
    (writerInit 3).queue.length ≤ 3 :=
  ⟨write_never_blocks_never_errors.2.2.1 ⟨2, [0, 1], false⟩ 5 rfl (by decide),
   write_never_blocks_never_errors.2.1 ⟨2, [0], true⟩ 5 rfl,
   write_never_blocks_never_errors.2.2.2 3 (writerInit 3) Relation.ReflTransGen.refl⟩

set_option maxRecDepth 100000 in
/-- C2: end-to-end scenario with one worker, `batchSize = 100`,
`bufferSize = 1000`: enqueuing 250 records accepts all of them into the
queue; the worker then receives them all and sees the channel close (in
Go a closed buffered channel delivers its remaining entries before
reporting closed), producing exactly three flushes of sizes 100, 100, 50
in that order, whose concatenation is exactly the 250 enqueued records.
The periodic ticker does not fire during the scenario (shutdown is
immediate, well within the flush interval). -/
theorem end_to_end_250_records :
    (writeAll (writerInit 1000) (List.range 250)).queue = List.range 250 ∧
    (workerRun 100 ((List.range 250).map WEvent.recv ++ [WEvent.closeCh]) []).map
        List.length = [100, 100, 50] ∧
    (workerRun 100 ((List.range 250).map WEvent.recv ++ [WEvent.closeCh]) []).flatten
      = List.range 250 := by
  refine ⟨by decide, by decide, by decide⟩

/-- C10: `logwriter.New` replaces every non-positive option by its default
before spawning workers — `BufferSize ≤ 0 → 10000`, `BatchSize ≤ 0 → 100`,
`FlushInterval ≤ 0 → 5s`, `Workers ≤ 0 → 1`, positive values kept
verbatim — so all four normalized fields are strictly positive. -/
theorem new_option_defaults (o : WOptions) :
    ((o.bufferSize ≤ 0 → (normalizeOptions o).bufferSize = 10000) ∧
     (0 < o.bufferSize → (normalizeOptions o).bufferSize = o.bufferSize)) ∧
    ((o.batchSize ≤ 0 → (normalizeOptions o).batchSize = 100) ∧
     (0 < o.batchSize → (normalizeOptions o).batchSize = o.batchSize)) ∧
    ((o.flushInterval ≤ 0 → (normalizeOptions o).flushInterval = fiveSeconds) ∧
     (0 < o.flushInterval → (normalizeOptions o).flushInterval = o.flushInterval)) ∧
    ((o.workers ≤ 0 → (normalizeOptions o).workers = 1) ∧
     (0 < o.workers → (normalizeOptions o).workers = o.workers)) ∧
    (0 < (normalizeOptions o).bufferSize ∧ 0 < (normalizeOptions o).batchSize ∧
     0 < (normalizeOptions o).flushInterval ∧ 0 < (normalizeOptions o).workers) := by
  obtain ⟨b, bs, fi, w⟩ := o
  simp only [normalizeOptions, fiveSeconds]
  split_ifs <;> simp_all

/-- Witness for `new_option_defaults` at a concrete all-nonpositive
option record: every field is replaced by its default. -/
theorem new_option_defaults_witness :
    (normalizeOptions ⟨0, -5, 0, -1⟩).bufferSize = 10000 ∧
    (normalizeOptions ⟨0, -5, 0, -1⟩).batchSize = 100 ∧
    (normalizeOptions ⟨0, -5, 0, -1⟩).flushInterval = fiveSeconds ∧
    (normalizeOptions ⟨0, -5, 0, -1⟩).workers = 1 :=
  ⟨(new_option_defaults ⟨0, -5, 0, -1⟩).1.1 (by decide),
   (new_option_defaults ⟨0, -5, 0, -1⟩).2.1.1 (by decide),
   (new_option_defaults ⟨0, -5, 0, -1⟩).2.2.1.1 (by decide),
   (new_option_defaults ⟨0, -5, 0, -1⟩).2.2.2.1.1 (by decide)⟩

/-! ### services/request_service.go : data model for Analyze -/

/-- The fields of `models.RequestLog` that `Analyze` reads.  `duration`
is the Go `float64` millisecond duration, embedded as `ℚ`; `createdAt`
is the creation instant in nanoseconds. -/
structure RequestLog where
  id : Nat
  path : String
  url : String
  method : String
  success : Bool
  duration : ℚ
  createdAt : Int
  deriving DecidableEq

/-- The fixed duration-histogram boundary list of `Analyze`. -/
def boundaries : List ℚ := [0, 20, 40, 80, 130, 150, 180, 200, 500, 1000, 2000]

/-- Boundary access `boundaries[i]`; only used at indices `i ≤ 10`,
which are always in range. -/
def bnd (i : Nat) : ℚ := boundaries.getD i 0

/-- A member of a duration bucket (`services.DurationBucketItem`). -/
structure DurationBucketItem where
  duration : ℚ
  url : String
  method : String
  success : Bool
  deriving DecidableEq

/-- A duration bucket (`services.DurationBucket`). -/
structure DurationBucket where
  id : ℚ
  count : Nat
  data : List DurationBucketItem
  deriving DecidableEq

/-- The item `Analyze` builds for a request inside a duration bucket:
the URL falls back from the normalized path to the full URL when the
path is empty. -/
def durationItemOf (r : RequestLog) : DurationBucketItem :=
  { duration := r.duration
    url := if r.path = "" then r.url else r.path
    method := r.method
    success := r.success }

/-- The inner loop of the duration bucketing: all requests with
`lo ≤ duration < hi`, in input order, as bucket items. -/
def durationBucketItems (rs : List RequestLog) (lo hi : ℚ) : List DurationBucketItem :=
  (rs.filter fun r => decide (lo ≤ r.duration) && decide (r.duration < hi)).map durationItemOf

/-- The duration-bucket loop of `Analyze`: for each adjacent boundary
pair, collect the matching items and emit a bucket only when non-empty,
with the lower boundary as ID and the item count as Count. -/
def durationBuckets (rs : List RequestLog) : List DurationBucket :=
  (List.range (boundaries.length - 1)).filterMap fun i =>
    let lo := bnd i
    let hi := bnd (i + 1)
    let items := durationBucketItems rs lo hi
    if items.isEmpty then none
    else some { id := lo, count := items.length, data := items }

/-- The boundary list is monotone on indices `0..10`. -/
theorem bnd_mono : ∀ i < 11, ∀ j < 11, i ≤ j → bnd i ≤ bnd j := by decide

/-- The bucket index a duration `0 ≤ d < 2000` falls into (proof helper;
mirrors the half-open comparison chain of the boundary list). -/
def bucketIdx (d : ℚ) : Nat :=
  if d < 20 then 0 else if d < 40 then 1 else if d < 80 then 2 else if d < 130 then 3
  else if d < 150 then 4 else if d < 180 then 5 else if d < 200 then 6 else if d < 500 then 7
  else if d < 1000 then 8 else 9

/-- For `0 ≤ d < 2000`, `bucketIdx d` is a valid bucket index containing `d`. -/
theorem bucketIdx_spec {d : ℚ} (h0 : 0 ≤ d) (h1 : d < 2000) :
    bucketIdx d < 10 ∧ bnd (bucketIdx d) ≤ d ∧ d < bnd (bucketIdx d + 1) := by
  unfold bucketIdx
  split_ifs <;>
    refine ⟨by norm_num, ?_, ?_⟩ <;>
    simp only [bnd, boundaries, List.getD_cons_zero, List.getD_cons_succ] <;>
    linarith

/-- At most one bucket index contains a given duration. -/
theorem bucketIdx_unique {d : ℚ} {i j : Nat} (hi : i < 10) (hj : j < 10)
    (h1 : bnd i ≤ d) (h2 : d < bnd (i + 1)) (h3 : bnd j ≤ d) (h4 : d < bnd (j + 1)) :
    i = j := by
  rcases lt_trichotomy i j with h | h | h
  · exfalso
    have hle := bnd_mono (i + 1) (by omega) j (by omega) (by omega)
    linarith
  · exact h
  · exfalso
    have hle := bnd_mono (j + 1) (by omega) i (by omega) (by omega)
    linarith

/-- A request's item is in the items of boundary pair `(lo, hi)` iff the
request's duration satisfies the half-open membership test. -/
theorem mem_durationBucketItems {rs : List RequestLog} {r : RequestLog}
    (hr : r ∈ rs) (lo hi : ℚ) :
    durationItemOf r ∈ durationBucketItems rs lo hi ↔
      lo ≤ r.duration ∧ r.duration < hi := by
  unfold durationBucketItems
  constructor
  · intro hmem
    rcases List.mem_map.mp hmem with ⟨r', hr', heq⟩
    rcases List.mem_filter.mp hr' with ⟨_, hcond⟩
    have hd : r'.duration = r.duration := congrArg DurationBucketItem.duration heq
    simp only [Bool.and_eq_true, decide_eq_true_eq] at hcond
    exact ⟨hd ▸ hcond.1, hd ▸ hcond.2⟩
  · intro hcond
    refine List.mem_map.mpr ⟨r, List.mem_filter.mpr ⟨hr, ?_⟩, rfl⟩
    simp only [Bool.and_eq_true, decide_eq_true_eq]
    exact hcond

/-- Every emitted duration bucket is non-empty, reports its member count,
and is the item list of one of the ten boundary pairs, labelled by the
lower boundary. -/
theorem durationBuckets_struct (rs : List RequestLog) :
    ∀ b ∈ durationBuckets rs,
      b.count = b.data.length ∧ b.data ≠ [] ∧
      ∃ i, i < 10 ∧ b.id = bnd i ∧
        b.data = durationBucketItems rs (bnd i) (bnd (i + 1)) := by
  intro b hb
  unfold durationBuckets at hb
  rcases List.mem_filterMap.mp hb with ⟨i, hi, hfi⟩
  dsimp only at hfi
  by_cases hemp : (durationBucketItems rs (bnd i) (bnd (i + 1))).isEmpty
  · rw [if_pos hemp] at hfi
    exact absurd hfi (by simp)
  · rw [if_neg hemp] at hfi
    obtain rfl := Option.some.inj hfi
    have hi10 : i < 10 := by simpa [boundaries] using List.mem_range.mp hi
    refine ⟨rfl, ?_, i, hi10, rfl, rfl⟩
    simpa [List.isEmpty_iff] using hemp

/-- C3: the fixed boundary list partitions durations into 10 half-open
buckets: a request's item is in boundary pair `i`'s list iff
`bnd i ≤ duration < bnd (i+1)`; for `0 ≤ duration < 2000` exactly one of
the ten indices contains the record, and the corresponding bucket is
emitted with the lower boundary as its ID; a duration `≥ 2000` lies in no
bucket list; every emitted bucket is non-empty (empty ones are omitted),
its ID is its lower boundary, and its Count is its member-list length. -/
theorem analyze_duration_histogram (rs : List RequestLog) :
    (∀ b ∈ durationBuckets rs,
        b.count = b.data.length ∧ b.data ≠ [] ∧
        ∃ i, i < 10 ∧ b.id = bnd i ∧
          b.data = durationBucketItems rs (bnd i) (bnd (i + 1))) ∧
    (∀ r ∈ rs, ∀ i, i < 10 →
        (durationItemOf r ∈ durationBucketItems rs (bnd i) (bnd (i + 1)) ↔
          bnd i ≤ r.duration ∧ r.duration < bnd (i + 1))) ∧
    (∀ r ∈ rs, 0 ≤ r.duration → r.duration < 2000 →
        ((Finset.range 10).filter fun i =>
            bnd i ≤ r.duration ∧ r.duration < bnd (i + 1)).card = 1) ∧
    (∀ r ∈ rs, 0 ≤ r.duration → r.duration < 2000 →
        ∃ b ∈ durationBuckets rs, b.id = bnd (bucketIdx r.duration) ∧
          durationItemOf r ∈ b.data) ∧
    (∀ r ∈ rs, (2000 : ℚ) ≤ r.duration → ∀ i, i < 10 →
        durationItemOf r ∉ durationBucketItems rs (bnd i) (bnd (i + 1))) := by
  refine ⟨durationBuckets_struct rs, ?_, ?_, ?_, ?_⟩
  · intro r hr i _
    exact mem_durationBucketItems hr _ _
  · intro r hr h0 h1
    obtain ⟨hlt, hlo, hhi⟩ := bucketIdx_spec h0 h1
    refine Finset.card_eq_one.mpr ⟨bucketIdx r.duration,
      Finset.eq_singleton_iff_unique_mem.mpr ⟨?_, ?_⟩⟩
    · exact Finset.mem_filter.mpr ⟨Finset.mem_range.mpr hlt, hlo, hhi⟩
    · intro x hx
      rcases Finset.mem_filter.mp hx with ⟨hxr, hx1, hx2⟩
      exact bucketIdx_unique (Finset.mem_range.mp hxr) hlt hx1 hx2 hlo hhi
  · intro r hr h0 h1
    obtain ⟨hlt, hlo, hhi⟩ := bucketIdx_spec h0 h1
    set i := bucketIdx r.duration with hidef
    have hmem : durationItemOf r ∈ durationBucketItems rs (bnd i) (bnd (i + 1)) :=
      (mem_durationBucketItems hr _ _).mpr ⟨hlo, hhi⟩
    have hemp : ¬ (durationBucketItems rs (bnd i) (bnd (i + 1))).isEmpty := by
      intro h
      rw [List.isEmpty_iff] at h
      rw [h] at hmem
      exact absurd hmem (List.not_mem_nil _)
    refine ⟨{ id := bnd i,
              count := (durationBucketItems rs (bnd i) (bnd (i + 1))).length,
              data := durationBucketItems rs (bnd i) (bnd (i + 1)) }, ?_, rfl, hmem⟩
    unfold durationBuckets
    refine List.mem_filterMap.mpr ⟨i, List.mem_range.mpr (by simpa [boundaries] using hlt), ?_⟩
    dsimp only
    rw [if_neg hemp]
  · intro r hr h2000 i hi hmem
    have hd := (mem_durationBucketItems hr _ _).mp hmem
    have hle : bnd (i + 1) ≤ bnd 10 := bnd_mono (i + 1) (by omega) 10 (by omega) (by omega)
    have h10 : bnd 10 = 2000 := by decide
    rw [h10] at hle
    linarith [hd.2]

/-- Request used by the histogram witness: id `n`, duration `d`. -/
def sampleReq (n : Nat) (d : ℚ) : RequestLog :=
  { id := n, path := "/p", url := "u", method := "GET", success := true,
    duration := d, createdAt := 0 }

/-- Sample request set with durations 0, 19, 20 and 2000. -/
def sampleReqs : List RequestLog :=
  [sampleReq 0 0, sampleReq 1 19, sampleReq 2 20, sampleReq 3 2000]

/-- Witness for `analyze_duration_histogram`: durations 0 and 19 land in
bucket `[0, 20)`, duration 20 lands in bucket `[20, 40)`, and duration
2000 lands in no bucket. -/
theorem analyze_duration_histogram_witness :
    durationItemOf (sampleReq 0 0) ∈ durationBucketItems sampleReqs (bnd 0) (bnd 1) ∧
    durationItemOf (sampleReq 1 19) ∈ durationBucketItems sampleReqs (bnd 0) (bnd 1) ∧
    durationItemOf (sampleReq 2 20) ∈ durationBucketItems sampleReqs (bnd 1) (bnd 2) ∧
    ∀ i, i < 10 →
      durationItemOf (sampleReq 3 2000) ∉ durationBucketItems sampleReqs (bnd i) (bnd (i + 1)) :=
  ⟨((analyze_duration_histogram sampleReqs).2.1 (sampleReq 0 0) (by decide) 0
      (by decide)).mpr (by decide),
   ((analyze_duration_histogram sampleReqs).2.1 (sampleReq 1 19) (by decide) 0
      (by decide)).mpr (by decide),
   ((analyze_duration_histogram sampleReqs).2.1 (sampleReq 2 20) (by decide) 1
      (by decide)).mpr (by decide),
   fun i hi => (analyze_duration_histogram sampleReqs).2.2.2.2 (sampleReq 3 2000)
      (by decide) (by decide) i hi⟩

/-! ### services/request_service.go : buildTimeRange and time buckets -/

/-- Go `time.Minute` in nanoseconds. -/
def minuteNs : Int := 60 * 1000000000

/-- Go `time.Hour` in nanoseconds. -/
def hourNs : Int := 60 * minuteNs

/-- Go `24 * time.Hour` in nanoseconds. -/
def dayNs : Int := 24 * hourNs

/-- The step-size switch of `buildTimeRange`: ≤ 1h → 1 minute, ≤ 24h →
1 hour, ≤ 31 days → 1 day, otherwise 30 days. -/
def stepFor (diff : Int) : Int :=
  if diff ≤ hourNs then minuteNs
  else if diff ≤ 24 * hourNs then hourNs
  else if diff ≤ 31 * dayNs then dayNs
  else 30 * dayNs

/-- The selected step is always positive. -/
theorem stepFor_pos (diff : Int) : 0 < stepFor diff := by
  unfold stepFor
  split_ifs <;> norm_num [minuteNs, hourNs, dayNs]

/-- Fuel-indexed version of the boundary-generation loop
`for t := from; t.Before(to); t = t.Add(step)`. -/
def genBoundsAux (step b : Int) : Nat → Int → List Int
  | 0, _ => []
  | n + 1, t => if t < b then t :: genBoundsAux step b n (t + step) else []

/-- The boundary-generation loop of `buildTimeRange`: all values
`t, t+step, t+2·step, …` that are strictly below `b`.  For a positive
step the fuel `(b - t).toNat` is enough for the loop to run to
completion (the loop advances by at least 1 per iteration). -/
def genBounds (b step t : Int) : List Int :=
  genBoundsAux step b (b - t).toNat t

/-- With a positive step, any sufficient fuel computes the same list. -/
theorem genBoundsAux_fuel {step b : Int} (hstep : 0 < step) :
    ∀ n m t, (b - t).toNat ≤ n → (b - t).toNat ≤ m →
      genBoundsAux step b n t = genBoundsAux step b m t := by
  intro n
  induction n with
  | zero =>
    intro m t hn _
    have hbt : ¬ t < b := by omega
    cases m with
    | zero => rfl
    | succ m => simp [genBoundsAux, hbt]
  | succ n ih =>
    intro m t hn hm
    cases m with
    | zero =>
      have hbt : ¬ t < b := by omega
      simp [genBoundsAux, hbt]
    | succ m =>
      simp only [genBoundsAux]
      by_cases hbt : t < b
      · rw [if_pos hbt, if_pos hbt]
        have hfuel : (b - (t + step)).toNat ≤ n := by omega
        have hfuel' : (b - (t + step)).toNat ≤ m := by omega
        rw [ih m (t + step) hfuel hfuel']
      · rw [if_neg hbt, if_neg hbt]

/-- One unfolding of the generation loop. -/
theorem genBounds_unfold {step : Int} (hstep : 0 < step) (b t : Int) :
    genBounds b step t =
      if t < b then t :: genBounds b step (t + step) else [] := by
  unfold genBounds
  by_cases hbt : t < b
  · have h1 : (b - t).toNat = ((b - t).toNat - 1) + 1 := by omega
    rw [if_pos hbt, h1]
    simp only [genBoundsAux, if_pos hbt]
    congr 1
    exact genBoundsAux_fuel hstep _ _ _ (by omega) le_rfl
  · have h0 : (b - t).toNat = 0 := by omega
    rw [if_neg hbt, h0]
    rfl

/-- Every generated boundary lies in `[t, b)`. -/
theorem genBounds_mem {step : Int} (hstep : 0 < step) (b : Int) :
    ∀ t, ∀ x ∈ genBounds b step t, t ≤ x ∧ x < b := by
  suffices H : ∀ n t, (b - t).toNat ≤ n → ∀ x ∈ genBounds b step t, t ≤ x ∧ x < b from
    fun t => H (b - t).toNat t le_rfl
  intro n
  induction n with
  | zero =>
    intro t hn x hx
    rw [genBounds_unfold hstep, if_neg (by omega)] at hx
    exact absurd hx (List.not_mem_nil _)
  | succ n ih =>
    intro t hn x hx
    rw [genBounds_unfold hstep] at hx
    by_cases hbt : t < b
    · rw [if_pos hbt] at hx
      rcases List.mem_cons.mp hx with rfl | hx'
      · exact ⟨le_rfl, hbt⟩
      · have := ih (t + step) (by omega) x hx'
        exact ⟨by omega, this.2⟩
    · rw [if_neg hbt] at hx
      exact absurd hx (List.not_mem_nil _)

/-- The generated boundaries are strictly increasing. -/
theorem genBounds_chain {step : Int} (hstep : 0 < step) (b : Int) :
    ∀ t, (genBounds b step t).Chain' (· < ·) := by
  suffices H : ∀ n t, (b - t).toNat ≤ n → (genBounds b step t).Chain' (· < ·) from
    fun t => H (b - t).toNat t le_rfl
  intro n
  induction n with
  | zero =>
    intro t hn
    rw [genBounds_unfold hstep, if_neg (by omega)]
    exact List.chain'_nil
  | succ n ih =>
    intro t hn
    rw [genBounds_unfold hstep]
    by_cases hbt : t < b
    · rw [if_pos hbt]
      refine List.chain'_cons'.mpr ⟨?_, ih (t + step) (by omega)⟩
      intro y hy
      have hmem : y ∈ genBounds b step (t + step) := by
        rcases hhead : genBounds b step (t + step) with _ | ⟨z, l⟩
        · simp [hhead] at hy
        · simp [hhead] at hy
          simp [hhead, hy]
      have := (genBounds_mem hstep b (t + step) y hmem).1
      omega
    · rw [if_neg hbt]
      exact List.chain'_nil

/-- The body of `buildTimeRange`: generate boundaries from `a` by the
selected step while strictly below `b`; an empty result is padded to
`[a, b]`, a one-element result is padded with `b`. -/
def buildTimeRange (a b : Int) : List Int :=
  match genBounds b (stepFor (b - a)) a with
  | [] => [a, b]
  | [x] => [x, b]
  | r => r

/-- The boundary list used by `Analyze`: `buildTimeRange`'s result with
`b` appended whenever that result is non-empty (it always is). -/
def analyzeRanges (a b : Int) : List Int :=
  let ranges := buildTimeRange a b
  if 0 < ranges.length then ranges ++ [b] else ranges

/-- Case analysis of the boundary list `Analyze` uses, for `a < b`:
when the range is at most one step the list is `[a, b, b]` (the padding
in `buildTimeRange` appends `b` once and `Analyze` appends it again);
otherwise it is the generated strictly-ascending boundaries followed by
a single `b`. -/
theorem analyzeRanges_cases {a b : Int} (hab : a < b) :
    (b - a ≤ stepFor (b - a) ∧ analyzeRanges a b = [a, b, b]) ∨
    (stepFor (b - a) < b - a ∧
      analyzeRanges a b = genBounds b (stepFor (b - a)) a ++ [b]) := by
  have hstep := stepFor_pos (b - a)
  have hg : genBounds b (stepFor (b - a)) a =
      a :: genBounds b (stepFor (b - a)) (a + stepFor (b - a)) := by
    rw [genBounds_unfold hstep, if_pos hab]
  by_cases hshort : b - a ≤ stepFor (b - a)
  · left
    refine ⟨hshort, ?_⟩
    have htail : genBounds b (stepFor (b - a)) (a + stepFor (b - a)) = [] := by
      rw [genBounds_unfold hstep, if_neg (by omega)]
    unfold analyzeRanges buildTimeRange
    rw [hg, htail]
    rfl
  · right
    refine ⟨by omega, ?_⟩
    have htail : genBounds b (stepFor (b - a)) (a + stepFor (b - a)) =
        (a + stepFor (b - a)) ::
          genBounds b (stepFor (b - a)) (a + stepFor (b - a) + stepFor (b - a)) := by
      rw [genBounds_unfold hstep, if_pos (by omega)]
    unfold analyzeRanges buildTimeRange
    rw [hg, htail]
    simp

/-- The boundary list `Analyze` uses is non-decreasing. -/
theorem analyzeRanges_chain {a b : Int} (hab : a < b) :
    (analyzeRanges a b).Chain' (· ≤ ·) := by
  rcases analyzeRanges_cases hab with ⟨_, heq⟩ | ⟨_, heq⟩
  · rw [heq]
    exact List.chain'_cons.mpr ⟨le_of_lt hab, List.chain'_cons.mpr ⟨le_rfl, List.chain'_singleton b⟩⟩
  · rw [heq]
    have hstep := stepFor_pos (b - a)
    refine List.chain'_append.mpr ⟨?_, List.chain'_singleton b, ?_⟩
    · exact List.Chain'.imp (fun x y h => le_of_lt h) (genBounds_chain hstep b a)
    · intro x hx y hy
      simp only [List.head?_cons, Option.mem_def, Option.some.injEq] at hy
      subst hy
      have hmem : x ∈ genBounds b (stepFor (b - a)) a :=
        List.mem_of_mem_getLast? hx
      exact le_of_lt (genBounds_mem hstep b a x hmem).2

/-- A member of a time bucket (`services.TimeBucketItem`). -/
structure TimeBucketItem where
  id : Nat
  url : String
  method : String
  success : Bool
  createdAt : Int
  deriving DecidableEq

/-- A time-series bucket (`services.TimeBucket`). -/
structure TimeBucket where
  id : Int
  count : Nat
  data : List TimeBucketItem
  deriving DecidableEq

/-- The item `Analyze` builds for a request inside a time bucket. -/
def timeItemOf (r : RequestLog) : TimeBucketItem :=
  { id := r.id, url := r.url, method := r.method, success := r.success,
    createdAt := r.createdAt }

/-- The inner loop of the time bucketing: all requests whose creation
instant is strictly after `start` and strictly before `stop`
(`r.CreatedAt.After(start) && r.CreatedAt.Before(end)`). -/
def timeBucketItems (rs : List RequestLog) (start stop : Int) : List TimeBucketItem :=
  (rs.filter fun r => decide (start < r.createdAt) && decide (r.createdAt < stop)).map timeItemOf

/-- The time-bucket loop of `Analyze`: for each adjacent pair of the
boundary list, collect the matching items and emit a bucket only when
non-empty, labelled by the interval start. -/
def timeBuckets (rs : List RequestLog) (ranges : List Int) : List TimeBucket :=
  (List.range (ranges.length - 1)).filterMap fun i =>
    let start := ranges.getD i 0
    let stop := ranges.getD (i + 1) 0
    let items := timeBucketItems rs start stop
    if items.isEmpty then none
    else some { id := start, count := items.length, data := items }

/-- A request's item is in the items of interval `(start, stop)` iff the
creation instant passes the strict exclusive-exclusive test. -/
theorem mem_timeBucketItems {rs : List RequestLog} {r : RequestLog}
    (hr : r ∈ rs) (start stop : Int) :
    timeItemOf r ∈ timeBucketItems rs start stop ↔
      start < r.createdAt ∧ r.createdAt < stop := by
  unfold timeBucketItems
  constructor
  · intro hmem
    rcases List.mem_map.mp hmem with ⟨r', hr', heq⟩
    rcases List.mem_filter.mp hr' with ⟨_, hcond⟩
    have hd : r'.createdAt = r.createdAt := congrArg TimeBucketItem.createdAt heq
    simp only [Bool.and_eq_true, decide_eq_true_eq] at hcond
    exact ⟨hd ▸ hcond.1, hd ▸ hcond.2⟩
  · intro hcond
    refine List.mem_map.mpr ⟨r, List.mem_filter.mpr ⟨hr, ?_⟩, rfl⟩
    simp only [Bool.and_eq_true, decide_eq_true_eq]
    exact hcond

/-- Every emitted time bucket is non-empty, reports its member count, and
is the item list of one adjacent pair of the boundary list, labelled by
the interval start. -/
theorem timeBuckets_struct (rs : List RequestLog) (ranges : List Int) :
    ∀ bkt ∈ timeBuckets rs ranges,
      bkt.count = bkt.data.length ∧ bkt.data ≠ [] ∧
      ∃ i, i + 1 < ranges.length ∧ bkt.id = ranges.getD i 0 ∧
        bkt.data = timeBucketItems rs (ranges.getD i 0) (ranges.getD (i + 1) 0) := by
  intro bkt hb
  unfold timeBuckets at hb
  rcases List.mem_filterMap.mp hb with ⟨i, hi, hfi⟩
  dsimp only at hfi
  by_cases hemp : (timeBucketItems rs (ranges.getD i 0) (ranges.getD (i + 1) 0)).isEmpty
  · rw [if_pos hemp] at hfi
    exact absurd hfi (by simp)
  · rw [if_neg hemp] at hfi
    obtain rfl := Option.some.inj hfi
    have hilen : i + 1 < ranges.length := by
      have := List.mem_range.mp hi
      omega
    refine ⟨rfl, ?_, i, hilen, rfl, rfl⟩
    simpa [List.isEmpty_iff] using hemp

/-- C4: time-bucket membership is a strict exclusive-exclusive test, so
a record whose creation instant equals `from`, `to`, or any generated
boundary of the list used by `Analyze` appears in no emitted time
bucket; and empty intervals are omitted (every emitted bucket is
non-empty, with Count equal to its member-list length). -/
theorem time_bucket_boundary_exclusion (a b : Int) (hab : a < b) (rs : List RequestLog) :
    (∀ r ∈ rs, ∀ start stop : Int,
        (timeItemOf r ∈ timeBucketItems rs start stop ↔
          start < r.createdAt ∧ r.createdAt < stop)) ∧
    (∀ r ∈ rs, r.createdAt ∈ analyzeRanges a b →
        ∀ bkt ∈ timeBuckets rs (analyzeRanges a b), timeItemOf r ∉ bkt.data) ∧
    (∀ bkt ∈ timeBuckets rs (analyzeRanges a b),
        bkt.count = bkt.data.length ∧ bkt.data ≠ []) := by
  refine ⟨fun r hr start stop => mem_timeBucketItems hr start stop, ?_, ?_⟩
  · intro r hr hbd bkt hbkt hitem
    obtain ⟨_, _, i, hilen, _, hdata⟩ := timeBuckets_struct rs (analyzeRanges a b) bkt hbkt
    rw [hdata] at hitem
    have hio := (mem_timeBucketItems hr _ _).mp hitem
    rcases List.mem_iff_get.mp hbd with ⟨jf, hjt⟩
    have hpw : (analyzeRanges a b).Pairwise (· ≤ ·) :=
      List.chain'_iff_pairwise.mp (analyzeRanges_chain hab)
    have hget := List.pairwise_iff_get.mp hpw
    have hi1 : i < (analyzeRanges a b).length := by omega
    have hgi : (analyzeRanges a b).getD i 0 = (analyzeRanges a b).get ⟨i, hi1⟩ := by
      rw [List.getD_eq_getElem _ _ hi1]
      rfl
    have hgi1 : (analyzeRanges a b).getD (i + 1) 0 = (analyzeRanges a b).get ⟨i + 1, hilen⟩ := by
      rw [List.getD_eq_getElem _ _ hilen]
      rfl
    rw [hgi, hgi1] at hio
    rcases Nat.lt_or_ge (jf : Nat) (i + 1) with hji | hji
    · have hle : (analyzeRanges a b).get jf ≤ (analyzeRanges a b).get ⟨i, hi1⟩ := by
        rcases Nat.lt_or_ge (jf : Nat) i with h | h
        · exact hget jf ⟨i, hi1⟩ h
        · have heq : jf = (⟨i, hi1⟩ : Fin (analyzeRanges a b).length) := Fin.ext (by simp only [Fin.val_mk]; omega)
          rw [heq]
      rw [hjt] at hle
      exact absurd hio.1 (by omega)
    · have hle : (analyzeRanges a b).get ⟨i + 1, hilen⟩ ≤ (analyzeRanges a b).get jf := by
        rcases Nat.lt_or_ge (i + 1) (jf : Nat) with h | h
        · exact hget ⟨i + 1, hilen⟩ jf h
        · have heq : (⟨i + 1, hilen⟩ : Fin (analyzeRanges a b).length) = jf := Fin.ext (by simp only [Fin.val_mk]; omega)
          rw [heq]
      rw [hjt] at hle
      exact absurd hio.2 (by omega)
  · intro bkt hbkt
    obtain ⟨hcount, hne, _⟩ := timeBuckets_struct rs (analyzeRanges a b) bkt hbkt
    exact ⟨hcount, hne⟩

/-- Requests used by the time-bucket witness: only `createdAt` varies. -/
def sampleTimeReq (n : Nat) (t : Int) : RequestLog :=
  { id := n, path := "/p", url := "u", method := "GET", success := true,
    duration := 1, createdAt := t }

/-- Witness for `time_bucket_boundary_exclusion` on the range `[0, 30]`
(boundary list `[0, 30, 30]`): the record created exactly at `from = 0`
and the record created exactly at `to = 30` are excluded from the
emitted bucket, which contains only the record created at 15. -/
theorem time_bucket_boundary_exclusion_witness :
    timeItemOf (sampleTimeReq 0 0) ∉
      (TimeBucket.mk 0 1 [timeItemOf (sampleTimeReq 1 15)]).data ∧
    timeItemOf (sampleTimeReq 2 30) ∉
      (TimeBucket.mk 0 1 [timeItemOf (sampleTimeReq 1 15)]).data :=
  ⟨(time_bucket_boundary_exclusion 0 30 (by decide)
      [sampleTimeReq 0 0, sampleTimeReq 1 15, sampleTimeReq 2 30]).2.1
      (sampleTimeReq 0 0) (by decide) (by decide)
      (TimeBucket.mk 0 1 [timeItemOf (sampleTimeReq 1 15)]) (by decide),
   (time_bucket_boundary_exclusion 0 30 (by decide)
      [sampleTimeReq 0 0, sampleTimeReq 1 15, sampleTimeReq 2 30]).2.1
      (sampleTimeReq 2 30) (by decide) (by decide)
      (TimeBucket.mk 0 1 [timeItemOf (sampleTimeReq 1 15)]) (by decide)⟩

/-- The generated boundary list is the arithmetic progression
`t, t + step, t + 2·step, …` of its own length. -/
theorem genBounds_multiples {step : Int} (hstep : 0 < step) (b : Int) :
    ∀ t, genBounds b step t =
      (List.range (genBounds b step t).length).map fun (k : Nat) => t + (k : Int) * step := by
  suffices H : ∀ n t, (b - t).toNat ≤ n →
      genBounds b step t =
        (List.range (genBounds b step t).length).map fun (k : Nat) => t + (k : Int) * step from
    fun t => H (b - t).toNat t le_rfl
  intro n
  induction n with
  | zero =>
    intro t hn
    rw [genBounds_unfold hstep, if_neg (by omega)]
    rfl
  | succ n ih =>
    intro t hn
    by_cases hbt : t < b
    · rw [genBounds_unfold hstep, if_pos hbt]
      simp only [List.length_cons, List.range_succ_eq_map, List.map_cons, List.map_map]
      refine List.cons_eq_cons.mpr ⟨by ring, ?_⟩
      have hrec := ih (t + step) (by omega)
      conv_lhs => rw [hrec]
      refine List.map_congr_left ?_
      intro k _
      simp only [Function.comp_apply]
      push_cast
      ring
    · rw [genBounds_unfold hstep, if_neg hbt]
      rfl

/-- The loop stops only once the next multiple reaches `b`. -/
theorem genBounds_length_bound {step : Int} (hstep : 0 < step) (b : Int) :
    ∀ t, b ≤ t + (genBounds b step t).length * step := by
  suffices H : ∀ n t, (b - t).toNat ≤ n → b ≤ t + (genBounds b step t).length * step from
    fun t => H (b - t).toNat t le_rfl
  intro n
  induction n with
  | zero =>
    intro t hn
    rw [genBounds_unfold hstep, if_neg (by omega)]
    simpa using by omega
  | succ n ih =>
    intro t hn
    by_cases hbt : t < b
    · rw [genBounds_unfold hstep, if_pos hbt]
      have hrec := ih (t + step) (by omega)
      simp only [List.length_cons]
      have hcast : ((genBounds b step (t + step)).length + 1 : Int) * step =
          (genBounds b step (t + step)).length * step + step := by ring
      push_cast
      push_cast at hrec
      linarith
    · rw [genBounds_unfold hstep, if_neg hbt]
      simpa using by omega

/-- Membership characterization of the generated boundaries: exactly the
multiples `t + k·step` strictly below `b`. -/
theorem genBounds_mem_iff {step : Int} (hstep : 0 < step) (b t x : Int) :
    x ∈ genBounds b step t ↔ ∃ k : ℕ, x = t + (k : Int) * step ∧ x < b := by
  constructor
  · intro hx
    have hxb := (genBounds_mem hstep b t x hx).2
    rw [genBounds_multiples hstep b t] at hx
    rcases List.mem_map.mp hx with ⟨k, _, hk⟩
    exact ⟨k, hk.symm, hxb⟩
  · rintro ⟨k, rfl, hxb⟩
    rw [genBounds_multiples hstep b t]
    refine List.mem_map.mpr ⟨k, List.mem_range.mpr ?_, rfl⟩
    by_contra hk
    push_neg at hk
    have hlb := genBounds_length_bound hstep b t
    have hmul : ((genBounds b step t).length : Int) * step ≤ (k : Int) * step :=
      mul_le_mul_of_nonneg_right (by exact_mod_cast hk) (le_of_lt hstep)
    linarith

/-- Boundary list as the specification words it (C5 refinement target):
the multiples of the step starting at `from` that are strictly less than
`to`, followed by one final boundary equal to `to`. -/
def specTimeRanges (a b : Int) : List Int :=
  genBounds b (stepFor (b - a)) a ++ [b]

/-- C5 counterexample: for `from = 0`, `to = 30` (a range shorter than
the 1-minute step) the code's boundary list is `[0, 30, 30]` — the
padding in `buildTimeRange` already appended `to` and `Analyze` appends
`to` again — while the claimed list is `[0, 30]`, ending in a single
final boundary. -/
theorem analyze_ranges_counterexample :
    analyzeRanges 0 30 = [0, 30, 30] ∧ specTimeRanges 0 30 = [0, 30] ∧
      analyzeRanges 0 30 ≠ specTimeRanges 0 30 := by decide

/-- C5 (amended): for `from < to` the boundary list used by `Analyze` is
the multiples of the step strictly below `to` followed by `to` — and,
when `to - from` is at most one step, by a second duplicated `to`.  The
generated part is exactly the arithmetic progression of multiples
strictly below `to`, and the step is the documented switch on the total
range. -/
theorem analyze_ranges_amended {a b : Int} (hab : a < b) :
    (analyzeRanges a b =
      specTimeRanges a b ++ (if b - a ≤ stepFor (b - a) then [b] else [])) ∧
    (∀ x : Int, x ∈ genBounds b (stepFor (b - a)) a ↔
      ∃ k : ℕ, x = a + (k : Int) * stepFor (b - a) ∧ x < b) ∧
    ((b - a ≤ hourNs → stepFor (b - a) = minuteNs) ∧
     (hourNs < b - a → b - a ≤ 24 * hourNs → stepFor (b - a) = hourNs) ∧
     (24 * hourNs < b - a → b - a ≤ 31 * dayNs → stepFor (b - a) = dayNs) ∧
     (31 * dayNs < b - a → stepFor (b - a) = 30 * dayNs)) := by
  have hstep := stepFor_pos (b - a)
  refine ⟨?_, fun x => genBounds_mem_iff hstep b a x, ?_⟩
  · rcases analyzeRanges_cases hab with ⟨hshort, heq⟩ | ⟨hlong, heq⟩
    · rw [heq, if_pos hshort]
      unfold specTimeRanges
      rw [genBounds_unfold hstep, if_pos hab, genBounds_unfold hstep, if_neg (by omega)]
      rfl
    · rw [heq, if_neg (by omega)]
      simp [specTimeRanges]
  · unfold stepFor
    refine ⟨fun h => by rw [if_pos h], fun h1 h2 => ?_, fun h1 h2 => ?_, fun h1 => ?_⟩
    · rw [if_neg (by omega), if_pos h2]
    · rw [if_neg (by simp [hourNs, minuteNs] at *; omega),
          if_neg (by omega), if_pos h2]
    · rw [if_neg (by simp [hourNs, minuteNs, dayNs] at *; omega),
          if_neg (by simp [hourNs, minuteNs, dayNs] at *; omega), if_neg (by omega)]

/-- Witness for `analyze_ranges_amended` at `from = 0`, `to = 30`: the
boundary list is the spec's list with the duplicated final `to`. -/
theorem analyze_ranges_amended_witness :
    analyzeRanges 0 30 = specTimeRanges 0 30 ++ [30] := by
  have h := (analyze_ranges_amended (show (0 : Int) < 30 by decide)).1
  rwa [if_pos (by decide)] at h

/-! ### services/request_service.go : pagination -/

/-- Decimal digit accumulation for `strconv.Atoi`: `none` on an empty or
non-digit sequence. -/
def digitsVal (cs : List Char) : Option Nat :=
  if cs.isEmpty then none
  else
    cs.foldl
      (fun acc c =>
        match acc with
        | none => none
        | some n => if c.isDigit then some (n * 10 + (c.toNat - 48)) else none)
      (some 0)

/-- Embedding of Go `strconv.Atoi` (stdlib): an optional leading sign
followed by at least one decimal digit, failing on anything else and on
values outside the 64-bit signed range (Go returns `ErrRange` there, and
the callers only test `err == nil`). -/
def atoi (s : String) : Option Int :=
  let signAndDigits : Int × List Char :=
    match s.toList with
    | '-' :: r => (-1, r)
    | '+' :: r => (1, r)
    | r => (1, r)
  match digitsVal signAndDigits.2 with
  | none => none
  | some n =>
    let v : Int := signAndDigits.1 * (n : Int)
    if v < -(2 ^ 63) ∨ 2 ^ 63 - 1 < v then none else some v

/-- The resolved page of `pagination`: defaults to 1, replaced by a
parsed value only when parsing succeeds and the value is positive. -/
def pageOf (s : String) : Int :=
  if s ≠ "" then
    match atoi s with
    | some v => if 0 < v then v else 1
    | none => 1
  else 1

/-- The per-page value of `pagination` before clamping: defaults to 20,
replaced by a parsed value only when parsing succeeds and the value is
positive. -/
def perPageRaw (s : String) : Int :=
  if s ≠ "" then
    match atoi s with
    | some v => if 0 < v then v else 20
    | none => 20
  else 20

/-- The resolved per-page of `pagination`: the parsed value clamped to
at most 50 (`if perPage > 50 { perPage = 50 }`). -/
def perPageOf (s : String) : Int :=
  if 50 < perPageRaw s then 50 else perPageRaw s

/-- The `pagination` helper: resolved per-page and the offset
`perPage*page - perPage`. -/
def pagination (pageS perPageS : String) : Int × Int :=
  let perPage := perPageOf perPageS
  let page := pageOf pageS
  (perPage, perPage * page - perPage)

/-- C6: the pagination resolver yields page 1 when the page field is
absent, non-numeric or below 1, and the parsed value otherwise; per-page
20 when absent, non-numeric or non-positive; any per-page above 50 is
clamped to exactly 50, values in `(0, 50]` are kept; and the offset is
`perPage * (page - 1)`. -/
theorem pagination_resolution (pageS perPageS : String) :
    ((pageS = "" ∨ atoi pageS = none ∨ (∃ v, atoi pageS = some v ∧ v < 1)) →
        pageOf pageS = 1) ∧
    (∀ v, atoi pageS = some v → 0 < v → pageOf pageS = v) ∧
    ((perPageS = "" ∨ atoi perPageS = none ∨
        (∃ v, atoi perPageS = some v ∧ v ≤ 0)) → perPageOf perPageS = 20) ∧
    (∀ v, atoi perPageS = some v → 50 < v → perPageOf perPageS = 50) ∧
    (∀ v, atoi perPageS = some v → 0 < v → v ≤ 50 → perPageOf perPageS = v) ∧
    pagination pageS perPageS =
      (perPageOf perPageS, perPageOf perPageS * (pageOf pageS - 1)) := by
  have hempty : atoi "" = none := rfl
  refine ⟨?_, ?_, ?_, ?_, ?_, ?_⟩
  · rintro (h | h | ⟨v, hv, hlt⟩)
    · simp [pageOf, h]
    · unfold pageOf
      by_cases hs : pageS = ""
      · simp [hs]
      · rw [if_pos hs, h]
    · unfold pageOf
      by_cases hs : pageS = ""
      · simp [hs]
      · rw [if_pos hs, hv]
        dsimp only
        rw [if_neg (by omega)]
  · intro v hv hpos
    unfold pageOf
    by_cases hs : pageS = ""
    · rw [hs, hempty] at hv
      exact absurd hv (by simp)
    · rw [if_pos hs, hv]
      dsimp only
      rw [if_pos hpos]
  · rintro (h | h | ⟨v, hv, hle⟩)
    · have hraw : perPageRaw perPageS = 20 := by simp [perPageRaw, h]
      unfold perPageOf
      rw [hraw]
      norm_num
    · have hraw : perPageRaw perPageS = 20 := by
        unfold perPageRaw
        by_cases hs : perPageS = ""
        · simp [hs]
        · rw [if_pos hs, h]
      unfold perPageOf
      rw [hraw]
      norm_num
    · have hraw : perPageRaw perPageS = 20 := by
        unfold perPageRaw
        by_cases hs : perPageS = ""
        · simp [hs]
        · rw [if_pos hs, hv]
          dsimp only
          exact if_neg (by omega)
      unfold perPageOf
      rw [hraw]
      norm_num
  · intro v hv h50
    have hs : perPageS ≠ "" := by
      intro hs
      rw [hs, hempty] at hv
      exact absurd hv (by simp)
    have hraw : perPageRaw perPageS = v := by
      unfold perPageRaw
      rw [if_pos hs, hv]
      dsimp only
      exact if_pos (by omega)
    unfold perPageOf
    rw [hraw, if_pos h50]
  · intro v hv hpos h50
    have hs : perPageS ≠ "" := by
      intro hs
      rw [hs, hempty] at hv
      exact absurd hv (by simp)
    have hraw : perPageRaw perPageS = v := by
      unfold perPageRaw
      rw [if_pos hs, hv]
      dsimp only
      exact if_pos hpos
    unfold perPageOf
    rw [hraw, if_neg (by omega)]
  · unfold pagination
    refine Prod.ext rfl ?_
    dsimp only
    ring

/-- Witness for `pagination_resolution`: `page = "0"` resolves to 1 and
`per_page = "1000"` is clamped to 50. -/
theorem pagination_resolution_witness :
    pageOf "0" = 1 ∧ perPageOf "1000" = 50 :=
  ⟨(pagination_resolution "0" "1000").1 (Or.inr (Or.inr ⟨0, by decide, by decide⟩)),
   (pagination_resolution "0" "1000").2.2.2.1 1000 (by decide) (by decide)⟩

/-! ### services/request_service.go : parseDateRange -/

/-- The `parseDateRange` helper, parameterized by the RFC3339 parser
`parse`, which embeds the Go stdlib `time.Parse(time.RFC3339, ·)` (its
source is outside this repository): each bound starts at its default
(`now - 24h` and `now`) and is replaced only when the raw string is
non-empty and parses. -/
def parseDateRange (parse : String → Option Int) (now : Int) (fromS toS : String) :
    Int × Int :=
  (if fromS ≠ "" then
      match parse fromS with
      | some t => t
      | none => now - dayNs
    else now - dayNs,
   if toS ≠ "" then
      match parse toS with
      | some t => t
      | none => now
    else now)

/-- C7: the resolved date range defaults to `[now - 24h, now]`: a missing
or unparsable from-date resolves to `now - 24h`, a missing or unparsable
to-date resolves to `now`, and a bound that parses is used verbatim.
The hypothesis `hp` records that the RFC3339 parser rejects the empty
string (as Go `time.Parse` does). -/
theorem date_range_defaults (parse : String → Option Int) (hp : parse "" = none)
    (now : Int) (fromS toS : String) :
    ((fromS = "" ∨ parse fromS = none) →
        (parseDateRange parse now fromS toS).1 = now - dayNs) ∧
    (∀ t, parse fromS = some t → (parseDateRange parse now fromS toS).1 = t) ∧
    ((toS = "" ∨ parse toS = none) →
        (parseDateRange parse now fromS toS).2 = now) ∧
    (∀ t, parse toS = some t → (parseDateRange parse now fromS toS).2 = t) := by
  refine ⟨?_, ?_, ?_, ?_⟩
  · rintro (h | h) <;> unfold parseDateRange <;> dsimp only
    · simp [h]
    · by_cases hs : fromS = ""
      · simp [hs]
      · rw [if_pos hs, h]
  · intro t ht
    have hs : fromS ≠ "" := by
      intro hs
      rw [hs, hp] at ht
      exact absurd ht (by simp)
    unfold parseDateRange
    dsimp only
    rw [if_pos hs, ht]
  · rintro (h | h) <;> unfold parseDateRange <;> dsimp only
    · simp [h]
    · by_cases hs : toS = ""
      · simp [hs]
      · rw [if_pos hs, h]
  · intro t ht
    have hs : toS ≠ "" := by
      intro hs
      rw [hs, hp] at ht
      exact absurd ht (by simp)
    unfold parseDateRange
    dsimp only
    rw [if_pos hs, ht]

/-- Concrete parser model for the date-range witness: only the string
`"2024"` parses, to instant 777. -/
def sampleParse (s : String) : Option Int :=
  if s = "2024" then some 777 else none

/-- Witness for `date_range_defaults`: an absent from-date resolves to
`now - 24h` and a parsable to-date is used verbatim. -/
theorem date_range_defaults_witness :
    (parseDateRange sampleParse 1000 "" "2024").1 = 1000 - dayNs ∧
    (parseDateRange sampleParse 1000 "" "2024").2 = 777 :=
  ⟨(date_range_defaults sampleParse rfl 1000 "" "2024").1 (Or.inl rfl),
   (date_range_defaults sampleParse rfl 1000 "" "2024").2.2.2 777 (by decide)⟩

/-! ### middleware (src/unnamed/part_001) : capture decision -/

/-- Embedding of Go `strings.HasPrefix` (stdlib) on the character
sequences of the two strings. -/
def strStartsWith (pre s : String) : Bool :=
  List.isPrefixOf pre.toList s.toList

/-- The skip check at the top of the monitoring middleware: the request
path is skipped when any configured skip path is a prefix of it. -/
def pathSkipped (skipPaths : List String) (path : String) : Bool :=
  skipPaths.any fun sp => strStartsWith sp path

/-- How many records the capture middleware enqueues for one handled
request, following its control flow: a skipped path returns before any
capture; a 404 response on a path without the `"/api/"` prefix is
ignored (`// ignore 404 status code`); every other request reaches the
single `cfg.Writer.Write(entry)` call. -/
def middlewareWriteCount (skipPaths : List String) (path : String) (statusCode : Int) : Nat :=
  if pathSkipped skipPaths path then 0
  else if statusCode = 404 ∧ (strStartsWith "/api/" path) = false then 0
  else 1

/-- C8 counterexample: with the default skip list, the non-skipped path
`"/foo"` produces no enqueue when the response status is 404 (but one
when it is 200) — the middleware does not capture every non-skipped
request regardless of status code. -/
theorem middleware_capture_counterexample :
    pathSkipped ["/api/monitoring"] "/foo" = false ∧
    middlewareWriteCount ["/api/monitoring"] "/foo" 404 = 0 ∧
    middlewareWriteCount ["/api/monitoring"] "/foo" 200 = 1 := by decide

/-- C8 (amended): for every request whose path does not match a
configured skip prefix, the middleware enqueues exactly one record —
except when the response status is 404 and the path does not start with
`"/api/"`, in which case it enqueues none. -/
theorem middleware_capture_amended (skipPaths : List String) (path : String)
    (statusCode : Int) (h : pathSkipped skipPaths path = false) :
    middlewareWriteCount skipPaths path statusCode =
      if statusCode = 404 ∧ (strStartsWith "/api/" path) = false then 0 else 1 := by
  unfold middlewareWriteCount
  rw [h]
  simp

/-- Witness for `middleware_capture_amended`: a 404 on the non-skipped
path `"/api/users"` (which has the `"/api/"` prefix) is still captured
exactly once. -/
theorem middleware_capture_amended_witness :
    middlewareWriteCount ["/api/monitoring"] "/api/users" 404 = 1 := by
  have h := middleware_capture_amended ["/api/monitoring"] "/api/users" 404 (by decide)
  rw [h, if_neg (by decide)]

/-! ### job service (src/unnamed/part_003) : Create and toJSON -/

/-- The metadata argument of `JobService.Create`, by the `switch` arms of
`toJSON`: a `json.RawMessage`, a `[]byte`, a `datatypes.JSON` (all raw
byte strings validated in place), or any other Go value of abstract type
`α`, which goes through `json.Marshal`. -/
inductive Metadata (α : Type) where
  | rawMessage (s : String)
  | bytes (s : String)
  | dtJSON (s : String)
  | other (v : α)

/-- The `toJSON` helper, parameterized by the stdlib oracles
`valid` (= `json.Valid`) and `marshal` (= `json.Marshal`, `none` for
non-serializable values such as channels and funcs): raw inputs are
validated in place, other values are marshalled. -/
def toJSON {α : Type} (valid : String → Bool) (marshal : α → Option String) :
    Metadata α → Except String String
  | .rawMessage s => if valid s then .ok s else .error "invalid json.RawMessage"
  | .bytes s => if valid s then .ok s else .error "invalid []byte JSON"
  | .dtJSON s => if valid s then .ok s else .error "invalid datatypes.JSON"
  | .other v =>
    match marshal v with
    | some b => .ok b
    | none => .error "json: unsupported type"

/-- A persisted job record (`models.JobLog`), the part `Create` fills. -/
structure JobLog where
  name : String
  success : Bool
  metadata : String
  deriving DecidableEq

/-- Whether a metadata value is JSON-serializable under the oracles. -/
def serializableB {α : Type} (valid : String → Bool) (marshal : α → Option String) :
    Metadata α → Bool
  | .rawMessage s => valid s
  | .bytes s => valid s
  | .dtJSON s => valid s
  | .other v => (marshal v).isSome

/-- `JobService.Create`: convert the metadata; on failure return a
wrapped error without touching the sink; on success issue exactly one
sink insert of the record carrying the validated JSON, propagating a
possible sink error.  The second component is the list of sink inserts
performed. -/
def jobCreate {α : Type} (valid : String → Bool) (marshal : α → Option String)
    (name : String) (success : Bool) (meta : Metadata α) (sinkErr : Option String) :
    Except String Unit × List JobLog :=
  match toJSON valid marshal meta with
  | .error e => (.error ("monitoring: metadata is not valid JSON: " ++ e), [])
  | .ok j =>
    match sinkErr with
    | some e => (.error e, [{ name := name, success := success, metadata := j }])
    | none => (.ok (), [{ name := name, success := success, metadata := j }])

/-- `toJSON` succeeds exactly on serializable metadata. -/
theorem toJSON_ok_iff {α : Type} (valid : String → Bool) (marshal : α → Option String)
    (meta : Metadata α) :
    (∃ j, toJSON valid marshal meta = .ok j) ↔
      serializableB valid marshal meta = true := by
  cases meta with
  | rawMessage s => by_cases hv : valid s <;> simp [toJSON, serializableB, hv]
  | bytes s => by_cases hv : valid s <;> simp [toJSON, serializableB, hv]
  | dtJSON s => by_cases hv : valid s <;> simp [toJSON, serializableB, hv]
  | other v => cases hm : marshal v <;> simp [toJSON, serializableB, hm]

/-- C9: `logJob` (`JobService.Create`) rejects non-serializable metadata
synchronously and atomically — the call returns an error and performs no
sink insert — while for serializable metadata the validated JSON string
is passed unchanged into the single inserted record; `toJSON` succeeds
exactly on serializable metadata (a raw `json.RawMessage`, `[]byte` or
`datatypes.JSON` must be well-formed JSON). -/
theorem logJob_rejects_invalid_metadata {α : Type} (valid : String → Bool)
    (marshal : α → Option String) (name : String) (success : Bool)
    (meta : Metadata α) (sinkErr : Option String) :
    (serializableB valid marshal meta = false →
        (∃ e, (jobCreate valid marshal name success meta sinkErr).1 = .error e) ∧
        (jobCreate valid marshal name success meta sinkErr).2 = []) ∧
    (∀ j, toJSON valid marshal meta = .ok j →
        (jobCreate valid marshal name success meta sinkErr).2 =
          [{ name := name, success := success, metadata := j }]) ∧
    (serializableB valid marshal meta = true ↔
        ∃ j, toJSON valid marshal meta = .ok j) := by
  refine ⟨?_, ?_, (toJSON_ok_iff valid marshal meta).symm⟩
  · intro hser
    cases htj : toJSON valid marshal meta with
    | ok j =>
      have : serializableB valid marshal meta = true :=
        (toJSON_ok_iff valid marshal meta).mp ⟨j, htj⟩
      rw [this] at hser
      exact absurd hser (by simp)
    | error e =>
      unfold jobCreate
      rw [htj]
      exact ⟨⟨"monitoring: metadata is not valid JSON: " ++ e, rfl⟩, rfl⟩
  · intro j htj
    unfold jobCreate
    rw [htj]
    cases sinkErr <;> rfl

/-- Witness for `logJob_rejects_invalid_metadata` with the validity
oracle accepting only `"{}"`: a malformed `json.RawMessage` is rejected
with no sink insert, and a well-formed one is inserted verbatim. -/
theorem logJob_rejects_invalid_metadata_witness :
    (jobCreate (fun s => s = "{}") (fun _ : Unit => none)
        "job" true (Metadata.rawMessage "oops") none).2 = [] ∧
    (jobCreate (fun s => s = "{}") (fun _ : Unit => none)
        "job" true (Metadata.rawMessage "{}") none).2 =
      [{ name := "job", success := true, metadata := "{}" }] :=
  ⟨((logJob_rejects_invalid_metadata (fun s => s = "{}") (fun _ : Unit => none)
      "job" true (Metadata.rawMessage "oops") none).1 rfl).2,
   (logJob_rejects_invalid_metadata (fun s => s = "{}") (fun _ : Unit => none)
      "job" true (Metadata.rawMessage "{}") none).2.1 "{}" rfl⟩
